import Mathlib

/-!
Shallow embedding of `src/flat_tree.rs` (broot's flat tree module) and
proofs about its selection, key and construction operations.

Modelling conventions:
* `usize` indices are `Nat`; `i32` deltas are `Int`, with the machine casts
  (`as i32`, `as usize`) and release-mode wrapping arithmetic made explicit
  (`wrapI32`, `i32AsUsize`, reduction modulo `2 ^ 64`).
* Fallible code (an out-of-bounds slice access, a loop that may not finish)
  returns `Option`; the looping `move_selection` takes explicit fuel.
* The external collaborators are taken at their interface: a `Path` is
  observed only through `file_name()`, `fs::metadata` is an explicit
  function argument, and a fuzzy `Pattern` is a function from a candidate
  name to an optional match score (the only field the code reads).
-/

namespace FlatTree

set_option maxRecDepth 16384

/-- Content of one tree line: `File`, `Dir`, or the non-selectable
`Pruning` placeholder (Rust enum `LineType`). -/
inductive LineType where
  | File (name : String)
  | Dir (name : String) (unlisted : Nat)
  | Pruning (unlisted : Nat)
deriving DecidableEq, Repr

/-- Abstraction of `std::path::PathBuf`: the module only ever calls
`file_name()` (plus lossy string conversion), so a path is modelled by
that single observation. -/
structure Path where
  fileName : Option String
deriving DecidableEq, Repr

/-- Rust struct `TreeLine`; `Box<[bool]>` becomes `List Bool` and the
`u16` depth a `Nat`. -/
structure TreeLine where
  left_branchs : List Bool
  depth : Nat
  key : String
  path : Path
  content : LineType
  has_error : Bool
deriving DecidableEq, Repr

/-- Rust struct `Tree`: the flattened lines and the selection index. -/
structure Tree where
  lines : List TreeLine
  selection : Nat
deriving DecidableEq, Repr

/-- Rust `index_to_char`: the three `...` ranges are inclusive, everything
else maps to the blank sentinel. The `u8` casts cannot truncate inside the
guarded ranges, so plain `Nat` arithmetic is faithful. -/
def index_to_char (i : Nat) : Char :=
  if 1 ≤ i ∧ i ≤ 26 then Char.ofNat (96 + i)
  else if 27 ≤ i ∧ i ≤ 36 then Char.ofNat (47 - 26 + i)
  else if 37 ≤ i ∧ i ≤ 60 then Char.ofNat (64 - 36 + i)
  else ' '

/-- Result of a successful `fs::metadata` call, reduced to the only field
the module reads. -/
structure Metadata where
  is_dir : Bool
deriving DecidableEq, Repr

/-- Name derivation in `TreeLine::create`: the path's final component, or
the literal `"???"` placeholder. -/
def pathName (path : Path) : String :=
  match path.fileName with
  | some s => s
  | none => "???"

/-- Rust `TreeLine::create`. The file system is passed in as the function
`fs` (the result of `fs::metadata`); construction itself is total. -/
def TreeLine.create (fs : Path → Option Metadata) (path : Path) (depth : Nat) : TreeLine :=
  let left_branchs := List.replicate depth false
  let name := pathName path
  let key := ""
  match fs path with
  | some metadata =>
      { left_branchs := left_branchs, key := key, path := path, depth := depth,
        content := if metadata.is_dir then LineType.Dir name 0 else LineType.File name,
        has_error := false }
  | none =>
      { left_branchs := left_branchs, key := key, path := path, depth := depth,
        content := LineType.File name,
        has_error := true }

/-- Rust `TreeLine::is_dir`. -/
def TreeLine.is_dir (l : TreeLine) : Bool :=
  match l.content with
  | LineType.Dir _ _ => true
  | _ => false

/-- Rust `TreeLine::name`: `File` and `Dir` carry a name, `Pruning` does not. -/
def TreeLine.name (l : TreeLine) : Option String :=
  match l.content with
  | LineType.Dir name _ => some name
  | LineType.File name => some name
  | LineType.Pruning _ => none

/-- Loop body of `TreeLine::fill_key`: iteration `i` reads `v[i + 1]`; an
out-of-bounds read (a Rust index panic) is `none`. The second argument
counts the remaining iterations. -/
def fillKeyAux (v : List Nat) : Nat → Nat → String → Option String
  | _, 0, key => some key
  | i, d + 1, key =>
    match v[i + 1]? with
    | some r => fillKeyAux v (i + 1) d (key.push (index_to_char r))
    | none => none

/-- Rust `TreeLine::fill_key` (`none` models the index panic). -/
def TreeLine.fill_key (l : TreeLine) (v : List Nat) (depth : Nat) : Option TreeLine :=
  (fillKeyAux v 0 depth l.key).map fun k => { l with key := k }

/-- Rust `Tree::has_branch`; `none` models the panic of the unchecked
`left_branchs[depth]` access (unreachable when `left_branchs` has length
`depth`, the documented line invariant). The Rust function takes `&self`,
so it is modelled as a pure observation of the tree. -/
def Tree.has_branch (t : Tree) (line_index : Nat) (depth : Nat) : Option Bool :=
  if t.lines.length ≤ line_index then some false
  else
    match t.lines[line_index]? with
    | some line =>
        if line.depth ≤ depth then some false
        else line.left_branchs[depth]?
    | none => none

/-- Loop of `Tree::try_select`: first index at offset `≥ i` whose key is
exactly `key`. -/
def trySelectAux (key : String) : List TreeLine → Nat → Option Nat
  | [], _ => none
  | l :: rest, i => if key = l.key then some i else trySelectAux key rest (i + 1)

/-- Rust `Tree::try_select`: the returned flag and the tree after the call. -/
def Tree.try_select (t : Tree) (key : String) : Bool × Tree :=
  match trySelectAux key t.lines 0 with
  | some i => (true, { t with selection := i })
  | none => (false, t)

/-- Width of `usize` on the modelled 64-bit target. -/
def USIZE : Nat := 2 ^ 64

/-- Wrapping (release-mode) `i32` value: the representative of `x` in
`[-2 ^ 31, 2 ^ 31)`. -/
def wrapI32 (x : Int) : Int := (x + 2 ^ 31) % 2 ^ 32 - 2 ^ 31

/-- Rust `as usize` cast of an `i32` value: two's-complement sign
extension to 64 bits. -/
def i32AsUsize (x : Int) : Nat := (x % (USIZE : Int)).toNat

/-- One iteration of the `move_selection` loop:
`(selection + (l as i32 + dy) as usize) % l`, with the `usize` addition
wrapping modulo `2 ^ 64`. -/
def moveStep (l sel : Nat) (dy : Int) : Nat :=
  ((sel + i32AsUsize (wrapI32 (wrapI32 (l : Int) + dy))) % USIZE) % l

/-- Whether a line's content can be selected by `move_selection` (the
loop breaks on `File` and `Dir`, and skips `Pruning`). -/
def LineType.selectable : LineType → Bool
  | LineType.File _ => true
  | LineType.Dir _ _ => true
  | LineType.Pruning _ => false

/-- Rust `Tree::move_selection`, with explicit fuel: the source loop has no
bound, so `none` means the loop did not finish within `fuel` iterations. -/
def Tree.move_selection (t : Tree) (dy : Int) : Nat → Option Tree
  | 0 => none
  | fuel + 1 =>
    let sel := moveStep t.lines.length t.selection dy
    match ({ t with selection := sel } : Tree).lines[sel]? with
    | some line =>
        if line.content.selectable then some { t with selection := sel }
        else Tree.move_selection { t with selection := sel } dy fuel
    | none => Tree.move_selection { t with selection := sel } dy fuel

/-- Termination of `move_selection`: some amount of fuel suffices. -/
def Tree.moveTerminates (t : Tree) (dy : Int) : Prop :=
  ∃ fuel t', t.move_selection dy fuel = some t'

/-- Repeated calls of `move_selection` (each with its own fuel). -/
def Tree.moveIter (t : Tree) (dy : Int) (fuel : Nat) : Nat → Option Tree
  | 0 => some t
  | k + 1 => (t.moveIter dy fuel k).bind fun t' => t'.move_selection dy fuel

/-- External fuzzy pattern, observed through `test`: an optional match
reduced to its numeric `score` (`i32`), the only field the module reads. -/
abbrev Pattern : Type := String → Option Int

/-- Score a pattern assigns to a line: nameless (`Pruning`) lines are
never tested. This is the composition `line.name()` then `pattern.test`. -/
def lineScore (pat : Pattern) (l : TreeLine) : Option Int :=
  match l.name with
  | some name => pat name
  | none => none

/-- Loop of `Tree::try_select_best_match`, threading the running pair
`(best_score, selection)` over the remaining lines (`idx` is the index of
the first of them). -/
def bestMatchAux (pat : Pattern) : List TreeLine → Nat → Int → Nat → Int × Nat
  | [], _, best, sel => (best, sel)
  | l :: rest, idx, best, sel =>
    match lineScore pat l with
    | some score =>
        if best < score then bestMatchAux pat rest (idx + 1) score idx
        else bestMatchAux pat rest (idx + 1) best sel
    | none => bestMatchAux pat rest (idx + 1) best sel

/-- Rust `Tree::try_select_best_match`: the returned flag (`best_score > 0`)
and the tree after the call. -/
def Tree.try_select_best_match (t : Tree) (pat : Pattern) : Bool × Tree :=
  let r := bestMatchAux pat t.lines 0 0 t.selection
  (decide (0 < r.1), { t with selection := r.2 })

/-- Whether the line at `idx` exists and has a name matched by `pat`
(any score): the test performed by the `try_select_next_match` loop. -/
def matchAt (pat : Pattern) (lines : List TreeLine) (idx : Nat) : Bool :=
  match lines[idx]? with
  | some l =>
      match l.name with
      | some name => (pat name).isSome
      | none => false
  | none => false

/-- Loop of `Tree::try_select_next_match` over `di = 0, 1, ...`; `rem`
iterations remain of the original `lines.len()`. -/
def nextMatchAux (pat : Pattern) (lines : List TreeLine) (sel : Nat) : Nat → Nat → Option Nat
  | _, 0 => none
  | di, rem + 1 =>
    let idx := (sel + di + 1) % lines.length
    match lines[idx]? with
    | some l =>
        match l.name with
        | some name =>
            if (pat name).isSome then some idx
            else nextMatchAux pat lines sel (di + 1) rem
        | none => nextMatchAux pat lines sel (di + 1) rem
    | none => nextMatchAux pat lines sel (di + 1) rem

/-- Rust `Tree::try_select_next_match`. -/
def Tree.try_select_next_match (t : Tree) (pat : Pattern) : Bool × Tree :=
  match nextMatchAux pat t.lines t.selection 0 t.lines.length with
  | some idx => (true, { t with selection := idx })
  | none => (false, t)

/-- Rust `Tree::key` (accessor; `none` models the index panic on an
out-of-bounds selection). -/
def Tree.selectedKey (t : Tree) : Option String :=
  (t.lines[t.selection]?).map TreeLine.key

/-- Rust `Tree::selected_line`. -/
def Tree.selected_line (t : Tree) : Option TreeLine :=
  t.lines[t.selection]?

/-- Rust `Tree::root`. -/
def Tree.root (t : Tree) : Option Path :=
  (t.lines[0]?).map TreeLine.path

/-! Helper lemmas about the `try_select` scan. -/

lemma trySelectAux_eq_none (key : String) :
    ∀ (lines : List TreeLine) (i0 : Nat),
      (∀ j (h : j < lines.length), lines[j].key ≠ key) →
      trySelectAux key lines i0 = none := by
  intro lines
  induction lines with
  | nil => intro i0 _; rfl
  | cons l rest ih =>
    intro i0 h
    have h0 : l.key ≠ key := by simpa using h 0 (by simp)
    simp only [trySelectAux]
    rw [if_neg fun he => h0 he.symm]
    exact ih (i0 + 1) fun j hj => by simpa using h (j + 1) (by simpa using Nat.succ_lt_succ hj)

lemma trySelectAux_eq_some (key : String) :
    ∀ (lines : List TreeLine) (i0 j : Nat) (h : j < lines.length),
      lines[j].key = key →
      (∀ j' (h' : j' < j), lines[j'].key ≠ key) →
      trySelectAux key lines i0 = some (i0 + j) := by
  intro lines
  induction lines with
  | nil => intro i0 j h; exact absurd h (by simp)
  | cons l rest ih =>
    intro i0 j h hj hmin
    cases j with
    | zero =>
      simp only [List.getElem_cons_zero] at hj
      simp [trySelectAux, if_pos hj.symm]
    | succ j' =>
      have hlk : l.key ≠ key := by simpa using hmin 0 (Nat.succ_pos j')
      simp only [trySelectAux]
      rw [if_neg fun he => hlk he.symm]
      rw [ih (i0 + 1) j' (by simpa using h) (by simpa using hj)
        (fun j'' h'' => by simpa using hmin (j'' + 1) (Nat.succ_lt_succ h''))]
      congr 1
      omega

lemma trySelectAux_lt (key : String) :
    ∀ (lines : List TreeLine) (i0 i : Nat),
      trySelectAux key lines i0 = some i → i < i0 + lines.length := by
  intro lines
  induction lines with
  | nil => intro i0 i h; exact absurd h (by simp [trySelectAux])
  | cons l rest ih =>
    intro i0 i h
    simp only [trySelectAux] at h
    by_cases hk : key = l.key
    · rw [if_pos hk] at h
      cases h
      simp
    · rw [if_neg hk] at h
      have := ih (i0 + 1) i h
      simp only [List.length_cons]
      omega

/-- C4: `try_select(key)` scans the lines in order; if some line's key
equals `key` exactly it sets the selection to the first such index and
returns `true`, and if no line's key matches it returns `false` and leaves
the tree (in particular the selection) unchanged. -/
theorem try_select_spec (t : Tree) (key : String) :
    ((∀ j (h : j < t.lines.length), t.lines[j].key ≠ key) →
      t.try_select key = (false, t)) ∧
    (∀ j (h : j < t.lines.length), t.lines[j].key = key →
      (∀ j' (h' : j' < j), t.lines[j'].key ≠ key) →
      t.try_select key = (true, { t with selection := j })) := by
  constructor
  · intro h
    unfold Tree.try_select
    rw [trySelectAux_eq_none key t.lines 0 h]
  · intro j h hj hmin
    unfold Tree.try_select
    rw [trySelectAux_eq_some key t.lines 0 j h hj hmin]
    simp

/-- A line constructor for concrete test trees. -/
def exLine (key : String) (content : LineType) : TreeLine :=
  { left_branchs := [], depth := 0, key := key, path := { fileName := none },
    content := content, has_error := false }

/-- Concrete tree with keys `["", "a", "b", "aa"]` (the spec's example). -/
def exKeys : Tree :=
  { lines := [exLine "" (LineType.File "root"), exLine "a" (LineType.File "a"),
              exLine "b" (LineType.File "b"), exLine "aa" (LineType.File "aa")],
    selection := 0 }

/-- Witness for C4: on keys `["", "a", "b", "aa"]`, `try_select "b"`
returns `true` with selection 2, and `try_select "z"` returns `false`
leaving the tree unchanged. -/
theorem try_select_spec_witness :
    exKeys.try_select "b" = (true, { exKeys with selection := 2 }) ∧
    exKeys.try_select "z" = (false, exKeys) := by
  constructor
  · exact (try_select_spec exKeys "b").2 2 (by decide) (by decide) (by decide)
  · exact (try_select_spec exKeys "z").1 (by decide)

/-- C8: `TreeLine::create` never fails. When the metadata query fails the
line has `has_error = true` and its content is the `File` variant with the
derived name (whatever the on-disk type is); when it succeeds the content
is `Dir {name, unlisted: 0}` for a directory and `File {name}` otherwise,
with `has_error = false`. -/
theorem create_spec (fs : Path → Option Metadata) (path : Path) (depth : Nat) :
    (fs path = none →
      (TreeLine.create fs path depth).has_error = true ∧
      (TreeLine.create fs path depth).content = LineType.File (pathName path)) ∧
    (∀ md, fs path = some md →
      (TreeLine.create fs path depth).has_error = false ∧
      (TreeLine.create fs path depth).content =
        (if md.is_dir then LineType.Dir (pathName path) 0
         else LineType.File (pathName path))) := by
  constructor
  · intro h
    simp [TreeLine.create, h]
  · intro md h
    simp [TreeLine.create, h]

/-- Example file system for the C8 witness: `"d"` is a directory, `"f"` a
file, everything else has unreadable metadata. -/
def exFs : Path → Option Metadata := fun p =>
  match p.fileName with
  | some "d" => some { is_dir := true }
  | some "f" => some { is_dir := false }
  | _ => none

/-- Witness for C8: a path with unreadable metadata yields an error `File`
line; a directory path yields a `Dir` line without error. -/
theorem create_spec_witness :
    (TreeLine.create exFs { fileName := some "gone" } 1).has_error = true ∧
    (TreeLine.create exFs { fileName := some "gone" } 1).content = LineType.File "gone" ∧
    (TreeLine.create exFs { fileName := some "d" } 0).has_error = false ∧
    (TreeLine.create exFs { fileName := some "d" } 0).content = LineType.Dir "d" 0 := by
  obtain ⟨h1, h2⟩ := (create_spec exFs { fileName := some "gone" } 1).1 rfl
  obtain ⟨h3, h4⟩ := (create_spec exFs { fileName := some "d" } 0).2 { is_dir := true } rfl
  exact ⟨h1, h2, h3, h4.trans (by decide)⟩

/-- C9: `has_branch(line_index, depth)` returns `false` when `line_index`
is out of bounds or `depth >= line.depth`, and otherwise returns the
line's `left_branchs[depth]` (the `Option` mirrors the Rust slice access;
the function observes the tree without mutating it). -/
theorem has_branch_spec (t : Tree) (i d : Nat) :
    (t.lines.length ≤ i → t.has_branch i d = some false) ∧
    (∀ h : i < t.lines.length, t.lines[i].depth ≤ d → t.has_branch i d = some false) ∧
    (∀ h : i < t.lines.length, d < t.lines[i].depth →
      t.has_branch i d = t.lines[i].left_branchs[d]?) := by
  refine ⟨?_, ?_, ?_⟩
  · intro h
    simp [Tree.has_branch, h]
  · intro h hd
    simp [Tree.has_branch, Nat.not_le.mpr h, List.getElem?_eq_getElem h, hd]
  · intro h hd
    simp [Tree.has_branch, Nat.not_le.mpr h, List.getElem?_eq_getElem h, Nat.not_le.mpr hd]

/-! Helper lemmas about the `fill_key` loop. -/

lemma fillKeyAux_total (v : List Nat) :
    ∀ (d i : Nat) (key : String), i + 1 + d ≤ v.length →
      fillKeyAux v i d key =
        some ⟨key.data ++ ((v.drop (i + 1)).take d).map index_to_char⟩ := by
  intro d
  induction d with
  | zero =>
    intro i key _
    simp only [List.take_zero, List.map_nil, List.append_nil]
    rfl
  | succ d ih =>
    intro i key h
    have hi : i + 1 < v.length := by omega
    simp only [fillKeyAux, List.getElem?_eq_getElem hi]
    rw [ih (i + 1) (key.push (index_to_char v[i + 1])) (by omega)]
    rw [List.drop_eq_getElem_cons hi, List.take_succ_cons, List.map_cons]
    simp

lemma fillKeyAux_oob (v : List Nat) :
    ∀ (d i : Nat) (key : String), 1 ≤ d → v.length ≤ i + d →
      fillKeyAux v i d key = none := by
  intro d
  induction d with
  | zero => intro i key h; omega
  | succ d ih =>
    intro i key _ hlen
    cases hv : v[i + 1]? with
    | none => simp [fillKeyAux, hv]
    | some r =>
      have hi : i + 1 < v.length := by
        by_contra hc
        rw [List.getElem?_eq_none (by omega)] at hv
        exact absurd hv (by simp)
      have hd : 1 ≤ d := by omega
      simp only [fillKeyAux, hv]
      exact ih (i + 1) _ hd (by omega)

/-- C10: with `v.len ≥ d + 1` the `fill_key` loop only performs in-bounds
accesses: it reads exactly `v[1] .. v[d]` (so the result is determined by
that segment, skipping `v[0]`) and appends one character per level;
without that precondition (for any `d ≥ 1`) the loop hits an
out-of-bounds read, so the precondition is required for totality. -/
theorem fill_key_safety (l : TreeLine) (v : List Nat) (d : Nat) :
    (d + 1 ≤ v.length →
      l.fill_key v d =
        some { l with key := ⟨l.key.data ++ ((v.drop 1).take d).map index_to_char⟩ } ∧
      (∀ l', l.fill_key v d = some l' → l'.key.length = l.key.length + d)) ∧
    (v.length ≤ d → 1 ≤ d → l.fill_key v d = none) := by
  constructor
  · intro h
    have he := fillKeyAux_total v d 0 l.key (by omega)
    constructor
    · simp [TreeLine.fill_key, he]
    · intro l' hl'
      rw [TreeLine.fill_key, he] at hl'
      simp only [Option.map_some', Option.some.injEq] at hl'
      subst hl'
      have hkd : l.key.data.length = l.key.length := rfl
      simp only [String.length_mk, List.length_append, List.length_map, List.length_take,
        List.length_drop, hkd]
      omega
  · intro h1 h2
    simp [TreeLine.fill_key, fillKeyAux_oob v d 0 l.key h2 (by omega)]

/-- Witness for C10: with `v = [99, 1, 2]`, depth 2 succeeds reading only
`v[1]`, `v[2]` and appends two characters; depth 3 hits the out-of-bounds
read and is not total. -/
theorem fill_key_safety_witness :
    (exLine "" (LineType.File "r")).fill_key [99, 1, 2] 2 =
      some { exLine "" (LineType.File "r") with key := "ab" } ∧
    (exLine "" (LineType.File "r")).fill_key [99, 1, 2] 3 = none := by
  constructor
  · exact ((fill_key_safety (exLine "" (LineType.File "r")) [99, 1, 2] 2).1
      (by decide)).1.trans (by decide)
  · exact (fill_key_safety (exLine "" (LineType.File "r")) [99, 1, 2] 3).2
      (by decide) (by decide)

/-! Helper lemmas about the key codec and lexicographic order. -/

lemma index_to_char_lower (r : Nat) (h1 : 1 ≤ r) (h2 : r ≤ 26) :
    'a' ≤ index_to_char r ∧ index_to_char r ≤ 'z' := by
  interval_cases r <;> decide

lemma index_to_char_mono {a b : Nat} (h1 : 1 ≤ a) (h2 : a ≤ 26) (h3 : 1 ≤ b)
    (h4 : b ≤ 26) (hab : a < b) :
    index_to_char a < index_to_char b := by
  interval_cases a <;> interval_cases b <;> decide

lemma append_singleton_lt (p : List Char) (c c' : Char) (h : c < c') :
    p ++ [c] < p ++ [c'] := by
  induction p with
  | nil => exact List.Lex.rel h
  | cons q qs ih => exact List.Lex.cons ih

/-- C7: for an ancestor-rank path `[_, r1, ..., rd]` with every rank in
`1..26`, `fill_key` on a line with empty key produces a key of exactly `d`
characters, all lowercase letters; and the keys of two such paths that
differ only in the last rank compare lexicographically like those ranks. -/
theorem fill_key_lowercase_lex (l : TreeLine) (hl : l.key = "") (x : Nat) :
    (∀ rs : List Nat, (∀ r ∈ rs, 1 ≤ r ∧ r ≤ 26) →
      l.fill_key (x :: rs) rs.length = some { l with key := ⟨rs.map index_to_char⟩ } ∧
      (rs.map index_to_char).length = rs.length ∧
      (∀ c ∈ rs.map index_to_char, 'a' ≤ c ∧ c ≤ 'z')) ∧
    (∀ (pre : List Nat) (a b : Nat), 1 ≤ a → a ≤ 26 → 1 ≤ b → b ≤ 26 → a < b →
      ∀ la lb,
        l.fill_key (x :: (pre ++ [a])) (pre ++ [a]).length = some la →
        l.fill_key (x :: (pre ++ [b])) (pre ++ [b]).length = some lb →
        la.key < lb.key) := by
  have hkey : ∀ rs : List Nat,
      l.fill_key (x :: rs) rs.length = some { l with key := ⟨rs.map index_to_char⟩ } := by
    intro rs
    have he := fillKeyAux_total (x :: rs) rs.length 0 l.key
      (by simp only [List.length_cons]; omega)
    rw [hl] at he
    simp only [List.drop_succ_cons, List.drop_zero, List.take_length] at he
    have he2 : fillKeyAux (x :: rs) 0 rs.length "" = some ⟨rs.map index_to_char⟩ := by
      rw [he]
      rfl
    unfold TreeLine.fill_key
    rw [hl, he2]
    rfl
  constructor
  · intro rs hrs
    refine ⟨hkey rs, by simp, ?_⟩
    intro c hc
    obtain ⟨r, hr, rfl⟩ := List.mem_map.mp hc
    exact index_to_char_lower r (hrs r hr).1 (hrs r hr).2
  · intro pre a b ha1 ha2 hb1 hb2 hab la lb hfa hfb
    have hea := (hkey (pre ++ [a])).symm.trans hfa
    have heb := (hkey (pre ++ [b])).symm.trans hfb
    simp only [Option.some.injEq] at hea heb
    rw [← hea, ← heb]
    rw [String.lt_iff_toList_lt]
    show ((pre ++ [a]).map index_to_char : List Char) < (pre ++ [b]).map index_to_char
    rw [List.map_append, List.map_append, List.map_singleton, List.map_singleton]
    exact append_singleton_lt _ _ _ (index_to_char_mono ha1 ha2 hb1 hb2 hab)

/-- Witness for C7: ranks `[1, 2]` below rank 9 give the key `"ab"`, and
the keys for last ranks 2 and 3 over the common prefix `[1]` are ordered
`"ab" < "ac"` like the ranks. -/
theorem fill_key_lowercase_lex_witness :
    (exLine "" (LineType.File "r")).fill_key [9, 1, 2] 2 =
      some { exLine "" (LineType.File "r") with key := "ab" } ∧
    ("ab" : String) < "ac" := by
  have h := fill_key_lowercase_lex (exLine "" (LineType.File "r")) rfl 9
  constructor
  · exact ((h.1 [1, 2] (by decide)).1).trans (by decide)
  · exact h.2 [1] 2 3 (by decide) (by decide) (by decide) (by decide) (by decide)
      { exLine "" (LineType.File "r") with key := "ab" }
      { exLine "" (LineType.File "r") with key := "ac" } (by decide) (by decide)

/-- Concrete one-line tree (depth 1, one branch flag) for the C9 witness. -/
def exBr : Tree :=
  { lines := [{ left_branchs := [true], depth := 1, key := "",
                path := { fileName := none }, content := LineType.File "r",
                has_error := false }],
    selection := 0 }

/-- Witness for C9: out-of-bounds index and too-large depth give `false`;
in bounds the stored flag is returned. -/
theorem has_branch_spec_witness :
    exBr.has_branch 5 0 = some false ∧
    exBr.has_branch 0 3 = some false ∧
    exBr.has_branch 0 0 = some true := by
  refine ⟨(has_branch_spec exBr 5 0).1 (by decide),
          (has_branch_spec exBr 0 3).2.1 (by decide) (by decide),
          ((has_branch_spec exBr 0 0).2.2 (by decide) (by decide)).trans (by decide)⟩

/-! Helper invariant for the `try_select_best_match` scan: the final score
is the maximum of the initial one and all line scores, and the final
selection is either untouched or the first line attaining that maximum. -/

lemma bestMatchAux_spec (pat : Pattern) :
    ∀ (lines : List TreeLine) (idx : Nat) (best : Int) (sel : Nat),
      best ≤ (bestMatchAux pat lines idx best sel).1 ∧
      (∀ j (h : j < lines.length) (s : Int), lineScore pat lines[j] = some s →
        s ≤ (bestMatchAux pat lines idx best sel).1) ∧
      (((bestMatchAux pat lines idx best sel).1 = best ∧
        (bestMatchAux pat lines idx best sel).2 = sel) ∨
       (best < (bestMatchAux pat lines idx best sel).1 ∧
        ∃ j, ∃ h : j < lines.length,
          (bestMatchAux pat lines idx best sel).2 = idx + j ∧
          lineScore pat lines[j] = some (bestMatchAux pat lines idx best sel).1 ∧
          ∀ k (hk : k < j) (s : Int), lineScore pat lines[k] = some s →
            s < (bestMatchAux pat lines idx best sel).1)) := by
  intro lines
  induction lines with
  | nil =>
    intro idx best sel
    refine ⟨le_refl _, ?_, Or.inl ⟨rfl, rfl⟩⟩
    intro j h s hs
    exact absurd h (by simp)
  | cons l rest ih =>
    intro idx best sel
    cases hsc : lineScore pat l with
    | none =>
      have hred : bestMatchAux pat (l :: rest) idx best sel
          = bestMatchAux pat rest (idx + 1) best sel := by
        simp [bestMatchAux, hsc]
      rw [hred]
      obtain ⟨ih1, ih2, ih3⟩ := ih (idx + 1) best sel
      refine ⟨ih1, ?_, ?_⟩
      · intro j h s hs
        cases j with
        | zero =>
          rw [List.getElem_cons_zero, hsc] at hs
          exact absurd hs (by simp)
        | succ j' =>
          rw [List.getElem_cons_succ] at hs
          exact ih2 j' (by simp only [List.length_cons] at h; omega) s hs
      · rcases ih3 with h3 | ⟨hb, j, h, hidx, hscj, hstrict⟩
        · exact Or.inl h3
        · refine Or.inr ⟨hb, j + 1, by simp only [List.length_cons]; omega,
            by rw [hidx]; omega, by rw [List.getElem_cons_succ]; exact hscj, ?_⟩
          intro k hk s hs
          cases k with
          | zero =>
            rw [List.getElem_cons_zero, hsc] at hs
            exact absurd hs (by simp)
          | succ k' =>
            rw [List.getElem_cons_succ] at hs
            exact hstrict k' (by omega) s hs
    | some s0 =>
      by_cases h0 : best < s0
      · have hred : bestMatchAux pat (l :: rest) idx best sel
            = bestMatchAux pat rest (idx + 1) s0 idx := by
          simp [bestMatchAux, hsc, h0]
        rw [hred]
        obtain ⟨ih1, ih2, ih3⟩ := ih (idx + 1) s0 idx
        refine ⟨le_trans (le_of_lt h0) ih1, ?_, ?_⟩
        · intro j h s hs
          cases j with
          | zero =>
            rw [List.getElem_cons_zero, hsc] at hs
            injection hs with hs
            rw [← hs]
            exact ih1
          | succ j' =>
            rw [List.getElem_cons_succ] at hs
            exact ih2 j' (by simp only [List.length_cons] at h; omega) s hs
        · rcases ih3 with ⟨e1, e2⟩ | ⟨hb, j, h, hidx, hscj, hstrict⟩
          · refine Or.inr ⟨by rw [e1]; exact h0, 0, by simp,
              by rw [e2]; omega, by rw [List.getElem_cons_zero, hsc, e1], ?_⟩
            intro k hk s hs
            exact absurd hk (by omega)
          · refine Or.inr ⟨lt_trans h0 hb, j + 1, by simp only [List.length_cons]; omega,
              by rw [hidx]; omega, by rw [List.getElem_cons_succ]; exact hscj, ?_⟩
            intro k hk s hs
            cases k with
            | zero =>
              rw [List.getElem_cons_zero, hsc] at hs
              injection hs with hs
              rw [← hs]
              exact hb
            | succ k' =>
              rw [List.getElem_cons_succ] at hs
              exact hstrict k' (by omega) s hs
      · have hred : bestMatchAux pat (l :: rest) idx best sel
            = bestMatchAux pat rest (idx + 1) best sel := by
          simp [bestMatchAux, hsc, h0]
        rw [hred]
        obtain ⟨ih1, ih2, ih3⟩ := ih (idx + 1) best sel
        refine ⟨ih1, ?_, ?_⟩
        · intro j h s hs
          cases j with
          | zero =>
            rw [List.getElem_cons_zero, hsc] at hs
            injection hs with hs
            rw [← hs]
            exact le_trans (not_lt.mp h0) ih1
          | succ j' =>
            rw [List.getElem_cons_succ] at hs
            exact ih2 j' (by simp only [List.length_cons] at h; omega) s hs
        · rcases ih3 with h3 | ⟨hb, j, h, hidx, hscj, hstrict⟩
          · exact Or.inl h3
          · refine Or.inr ⟨hb, j + 1, by simp only [List.length_cons]; omega,
              by rw [hidx]; omega, by rw [List.getElem_cons_succ]; exact hscj, ?_⟩
            intro k hk s hs
            cases k with
            | zero =>
              rw [List.getElem_cons_zero, hsc] at hs
              injection hs with hs
              rw [← hs]
              exact lt_of_le_of_lt (not_lt.mp h0) hb
            | succ k' =>
              rw [List.getElem_cons_succ] at hs
              exact hstrict k' (by omega) s hs

/-- C5: `try_select_best_match(pattern)` considers only lines that have a
name (so never a `Pruning` line), returns `true` iff some considered line
has a positive score, leaves the tree unchanged when it returns `false`,
and on success selects the earliest line attaining the strictly maximal
score (earlier lines all score strictly less, all lines score at most it). -/
theorem try_select_best_match_spec (t : Tree) (pat : Pattern) :
    ((t.try_select_best_match pat).1 = true ↔
      ∃ j, ∃ h : j < t.lines.length, ∃ s : Int,
        lineScore pat t.lines[j] = some s ∧ 0 < s) ∧
    ((t.try_select_best_match pat).1 = false → (t.try_select_best_match pat).2 = t) ∧
    ((t.try_select_best_match pat).1 = true →
      ∃ j, ∃ h : j < t.lines.length, ∃ s : Int,
        (t.try_select_best_match pat).2 = { t with selection := j } ∧
        lineScore pat t.lines[j] = some s ∧ 0 < s ∧
        (∀ k (hk : k < t.lines.length) (s' : Int),
          lineScore pat t.lines[k] = some s' → s' ≤ s) ∧
        (∀ k (hk : k < j) (s' : Int),
          lineScore pat t.lines[k] = some s' → s' < s)) := by
  obtain ⟨h1, h2, h3⟩ := bestMatchAux_spec pat t.lines 0 0 t.selection
  have hfst : (t.try_select_best_match pat).1
      = decide (0 < (bestMatchAux pat t.lines 0 0 t.selection).1) := rfl
  have hsnd : (t.try_select_best_match pat).2
      = { t with selection := (bestMatchAux pat t.lines 0 0 t.selection).2 } := rfl
  refine ⟨?_, ?_, ?_⟩
  · rw [hfst, decide_eq_true_eq]
    constructor
    · intro hpos
      rcases h3 with ⟨e1, _⟩ | ⟨_, j, h, _, hscj, _⟩
      · rw [e1] at hpos
        exact absurd hpos (lt_irrefl 0)
      · exact ⟨j, h, _, hscj, hpos⟩
    · rintro ⟨j, h, s, hs, hspos⟩
      exact lt_of_lt_of_le hspos (h2 j h s hs)
  · intro hfalse
    rw [hfst] at hfalse
    have hnpos := of_decide_eq_false hfalse
    have hz : (bestMatchAux pat t.lines 0 0 t.selection).1 = 0 := le_antisymm (not_lt.mp hnpos) h1
    rcases h3 with ⟨_, e2⟩ | ⟨hb, _⟩
    · rw [hsnd, e2]
    · rw [hz] at hb
      exact absurd hb (lt_irrefl 0)
  · intro htrue
    rw [hfst, decide_eq_true_eq] at htrue
    rcases h3 with ⟨e1, _⟩ | ⟨hb, j, h, hidx, hscj, hstrict⟩
    · rw [e1] at htrue
      exact absurd htrue (lt_irrefl 0)
    · refine ⟨j, h, _, ?_, hscj, htrue, fun k hk s' hs' => h2 k hk s' hs',
        fun k hk s' hs' => hstrict k hk s' hs'⟩
      rw [hsnd, hidx, Nat.zero_add]

/-- Scoring pattern for the C5 witness: `"app"` scores highest. -/
def exScore : Pattern := fun s =>
  if s = "app" then some 10
  else if s = "apple" then some 5
  else if s = "snap" then some 3
  else none

/-- Concrete tree with names `["root", "apple", "app", "snap"]` (the
spec's example). -/
def exBM : Tree :=
  { lines := [exLine "" (LineType.File "root"), exLine "a" (LineType.File "apple"),
              exLine "b" (LineType.File "app"), exLine "c" (LineType.File "snap")],
    selection := 0 }

/-- Witness for C5: with the example scores the call reports a match, and
with a pattern matching nothing the tree is left unchanged. -/
theorem try_select_best_match_spec_witness :
    (exBM.try_select_best_match exScore).1 = true ∧
    (exBM.try_select_best_match (fun _ => none)).2 = exBM := by
  constructor
  · exact (try_select_best_match_spec exBM exScore).1.mpr
      ⟨2, by decide, 10, by decide, by decide⟩
  · exact (try_select_best_match_spec exBM (fun _ => none)).2.1 (by decide)

/-! Helper lemmas about the `try_select_next_match` cyclic scan. -/

lemma nextMatchAux_none (pat : Pattern) (lines : List TreeLine) (sel : Nat) :
    ∀ (rem di : Nat),
      (∀ k, k < rem → matchAt pat lines ((sel + di + k + 1) % lines.length) = false) →
      nextMatchAux pat lines sel di rem = none := by
  intro rem
  induction rem with
  | zero => intro di _; rfl
  | succ rem ih =>
    intro di h
    have h0 := h 0 (Nat.succ_pos rem)
    have hrest : ∀ k, k < rem →
        matchAt pat lines ((sel + (di + 1) + k + 1) % lines.length) = false := by
      intro k hk
      have hh := h (k + 1) (by omega)
      rw [show sel + di + (k + 1) + 1 = sel + (di + 1) + k + 1 by omega] at hh
      exact hh
    rw [show sel + di + 0 + 1 = sel + di + 1 by omega] at h0
    simp only [nextMatchAux]
    cases hg : lines[(sel + di + 1) % lines.length]? with
    | none =>
      simp only [hg]
      exact ih (di + 1) hrest
    | some l =>
      cases hn : l.name with
      | none =>
        simp only [hg, hn]
        exact ih (di + 1) hrest
      | some name =>
        simp only [matchAt, hg, hn] at h0
        simp only [hg, hn, h0, Bool.false_eq_true, if_false]
        exact ih (di + 1) hrest

lemma nextMatchAux_some (pat : Pattern) (lines : List TreeLine) (sel : Nat) :
    ∀ (rem di k : Nat), k < rem →
      matchAt pat lines ((sel + di + k + 1) % lines.length) = true →
      (∀ j, j < k → matchAt pat lines ((sel + di + j + 1) % lines.length) = false) →
      nextMatchAux pat lines sel di rem = some ((sel + di + k + 1) % lines.length) := by
  intro rem
  induction rem with
  | zero => intro di k hk; omega
  | succ rem ih =>
    intro di k hk hmatch hmin
    cases k with
    | zero =>
      rw [show sel + di + 0 + 1 = sel + di + 1 by omega] at hmatch ⊢
      simp only [nextMatchAux]
      cases hg : lines[(sel + di + 1) % lines.length]? with
      | none =>
        simp only [matchAt, hg] at hmatch
        exact absurd hmatch (by simp)
      | some l =>
        cases hn : l.name with
        | none =>
          simp only [matchAt, hg, hn] at hmatch
          exact absurd hmatch (by simp)
        | some name =>
          simp only [matchAt, hg, hn] at hmatch
          simp only [hg, hn, hmatch, if_true]
    | succ k' =>
      have h0 := hmin 0 (Nat.succ_pos k')
      rw [show sel + di + 0 + 1 = sel + di + 1 by omega] at h0
      have hmatch' : matchAt pat lines ((sel + (di + 1) + k' + 1) % lines.length) = true := by
        rw [show sel + di + (k' + 1) + 1 = sel + (di + 1) + k' + 1 by omega] at hmatch
        exact hmatch
      have hmin' : ∀ j, j < k' →
          matchAt pat lines ((sel + (di + 1) + j + 1) % lines.length) = false := by
        intro j hj
        have hh := hmin (j + 1) (by omega)
        rw [show sel + di + (j + 1) + 1 = sel + (di + 1) + j + 1 by omega] at hh
        exact hh
      rw [show sel + di + (k' + 1) + 1 = sel + (di + 1) + k' + 1 by omega]
      simp only [nextMatchAux]
      cases hg : lines[(sel + di + 1) % lines.length]? with
      | none =>
        simp only [hg]
        exact ih (di + 1) k' (by omega) hmatch' hmin'
      | some l =>
        cases hn : l.name with
        | none =>
          simp only [hg, hn]
          exact ih (di + 1) k' (by omega) hmatch' hmin'
        | some name =>
          simp only [matchAt, hg, hn] at h0
          simp only [hg, hn, h0, Bool.false_eq_true, if_false]
          exact ih (di + 1) k' (by omega) hmatch' hmin'

lemma nextMatchAux_matched (pat : Pattern) (lines : List TreeLine) (sel : Nat) :
    ∀ (rem di idx : Nat), nextMatchAux pat lines sel di rem = some idx →
      matchAt pat lines idx = true := by
  intro rem
  induction rem with
  | zero => intro di idx h; exact absurd h (by simp [nextMatchAux])
  | succ rem ih =>
    intro di idx h
    simp only [nextMatchAux] at h
    cases hg : lines[(sel + di + 1) % lines.length]? with
    | none =>
      simp only [hg] at h
      exact ih (di + 1) idx h
    | some l =>
      cases hn : l.name with
      | none =>
        simp only [hg, hn] at h
        exact ih (di + 1) idx h
      | some name =>
        simp only [hg, hn] at h
        by_cases hp : (pat name).isSome = true
        · rw [if_pos hp] at h
          injection h with h
          rw [← h]
          simp only [matchAt, hg, hn]
          exact hp
        · rw [if_neg hp] at h
          exact ih (di + 1) idx h

/-- C6: `try_select_next_match(pattern)` scans cyclically from
`selection + 1` (mod line count); it selects the first line in that order
whose name yields any match and returns `true`, and if the full cycle of
`lines.len()` probes finds none it returns `false` with the tree
unchanged. -/
theorem try_select_next_match_spec (t : Tree) (pat : Pattern) :
    ((∀ di (h : di < t.lines.length),
        matchAt pat t.lines ((t.selection + di + 1) % t.lines.length) = false) →
      t.try_select_next_match pat = (false, t)) ∧
    (∀ di (h : di < t.lines.length),
      matchAt pat t.lines ((t.selection + di + 1) % t.lines.length) = true →
      (∀ dj (hj : dj < di),
        matchAt pat t.lines ((t.selection + dj + 1) % t.lines.length) = false) →
      t.try_select_next_match pat
        = (true, { t with selection := (t.selection + di + 1) % t.lines.length })) := by
  constructor
  · intro h
    unfold Tree.try_select_next_match
    rw [nextMatchAux_none pat t.lines t.selection t.lines.length 0 (fun k hk => by
      rw [show t.selection + 0 + k + 1 = t.selection + k + 1 by omega]
      exact h k hk)]
  · intro di h hmatch hmin
    unfold Tree.try_select_next_match
    rw [nextMatchAux_some pat t.lines t.selection t.lines.length 0 di h
      (by rw [show t.selection + 0 + di + 1 = t.selection + di + 1 by omega]; exact hmatch)
      (fun j hj => by
        rw [show t.selection + 0 + j + 1 = t.selection + j + 1 by omega]
        exact hmin j hj)]
    rw [show t.selection + 0 + di + 1 = t.selection + di + 1 by omega]

/-- Concrete tree with names `["root", "foo", "bar", "food"]` (the spec's
example). -/
def exNM : Tree :=
  { lines := [exLine "" (LineType.File "root"), exLine "a" (LineType.File "foo"),
              exLine "b" (LineType.File "bar"), exLine "c" (LineType.File "food")],
    selection := 0 }

/-- Pattern for the C6 witness, matching `"foo"` and `"food"`. -/
def exFo : Pattern := fun s => if s = "foo" || s = "food" then some 1 else none

/-- Witness for C6: from selection 0 the scan lands on index 1 (`"foo"`);
with a pattern matching nothing the call fails leaving the tree unchanged. -/
theorem try_select_next_match_spec_witness :
    exNM.try_select_next_match exFo = (true, { exNM with selection := 1 }) ∧
    exNM.try_select_next_match (fun _ => none) = (false, exNM) := by
  constructor
  · exact (try_select_next_match_spec exNM exFo).2 0 (by decide) (by decide)
      (fun dj hj => absurd hj (by omega))
  · exact (try_select_next_match_spec exNM (fun _ => none)).1 (by decide)

/-! Helper lemmas about one iteration of `move_selection`. -/

lemma moveStep_eq (l sel : Nat) (dy : Int) (hl : (l : Int) < 2 ^ 31)
    (hsel : sel < 2 ^ 31) (h0 : 0 ≤ (l : Int) + dy) (h1 : (l : Int) + dy < 2 ^ 31) :
    moveStep l sel dy = (sel + ((l : Int) + dy).toNat) % l := by
  unfold moveStep wrapI32 i32AsUsize USIZE
  have e1 : ((l : Int) + 2 ^ 31) % 2 ^ 32 - 2 ^ 31 = (l : Int) := by omega
  rw [e1]
  have e2 : ((l : Int) + dy + 2 ^ 31) % 2 ^ 32 - 2 ^ 31 = (l : Int) + dy := by omega
  rw [e2]
  have e3 : ((l : Int) + dy) % (((2 ^ 64 : Nat) : Int)) = (l : Int) + dy := by
    push_cast
    omega
  rw [e3]
  have e4 : sel + ((l : Int) + dy).toNat < 2 ^ 64 := by omega
  rw [Nat.mod_eq_of_lt e4]

lemma move_selection_stop (t : Tree) (dy : Int) (fuel : Nat) (l : TreeLine)
    (hg : t.lines[moveStep t.lines.length t.selection dy]? = some l)
    (hs : l.content.selectable = true) :
    t.move_selection dy (fuel + 1)
      = some { t with selection := moveStep t.lines.length t.selection dy } := by
  simp only [Tree.move_selection, hg, hs, if_true]

lemma move_selection_go (t : Tree) (dy : Int) (fuel : Nat)
    (hg : ∀ l, t.lines[moveStep t.lines.length t.selection dy]? = some l →
      l.content.selectable = false) :
    t.move_selection dy (fuel + 1)
      = Tree.move_selection
          { t with selection := moveStep t.lines.length t.selection dy } dy fuel := by
  simp only [Tree.move_selection]
  cases hg' : t.lines[moveStep t.lines.length t.selection dy]? with
  | none => simp only [hg']
  | some l =>
    simp only [hg', hg l hg', Bool.false_eq_true, if_false]

lemma move_selection_some (dy : Int) :
    ∀ (fuel : Nat) (t t' : Tree), t.move_selection dy fuel = some t' →
      t'.lines = t.lines ∧ t'.selection < t.lines.length ∧
      ∃ l, t.lines[t'.selection]? = some l ∧ l.content.selectable = true := by
  intro fuel
  induction fuel with
  | zero => intro t t' h; exact absurd h (by simp [Tree.move_selection])
  | succ fuel ih =>
    intro t t' h
    simp only [Tree.move_selection] at h
    cases hg : t.lines[moveStep t.lines.length t.selection dy]? with
    | none =>
      simp only [hg] at h
      exact ih { t with selection := moveStep t.lines.length t.selection dy } t' h
    | some l =>
      by_cases hs : l.content.selectable = true
      · simp only [hg, hs, if_true] at h
        injection h with h
        have hlt : moveStep t.lines.length t.selection dy < t.lines.length := by
          by_contra hc
          rw [List.getElem?_eq_none (by omega)] at hg
          exact absurd hg (by simp)
        rw [← h]
        exact ⟨rfl, hlt, l, hg, hs⟩
      · have hs' : l.content.selectable = false := by
          simp only [Bool.not_eq_true] at hs
          exact hs
        simp only [hg, hs', Bool.false_eq_true, if_false] at h
        exact ih { t with selection := moveStep t.lines.length t.selection dy } t' h

lemma move_selection_one (t : Tree) (dy : Int) (fuel : Nat)
    (hall : ∀ j (h : j < t.lines.length), t.lines[j].content.selectable = true)
    (hsel : t.selection < t.lines.length)
    (hn : (t.lines.length : Int) < 2 ^ 31)
    (hd0 : 0 ≤ (t.lines.length : Int) + dy)
    (hd1 : (t.lines.length : Int) + dy < 2 ^ 31) :
    t.move_selection dy (fuel + 1)
      = some { t with selection :=
          (t.selection + ((t.lines.length : Int) + dy).toNat) % t.lines.length } := by
  have hpos : 0 < t.lines.length := by omega
  have hstep := moveStep_eq t.lines.length t.selection dy hn (by omega) hd0 hd1
  have hlt : (t.selection + ((t.lines.length : Int) + dy).toNat) % t.lines.length
      < t.lines.length := Nat.mod_lt _ hpos
  have hg : t.lines[moveStep t.lines.length t.selection dy]?
      = some (t.lines[(t.selection + ((t.lines.length : Int) + dy).toNat) % t.lines.length]) := by
    rw [hstep]
    exact List.getElem?_eq_getElem hlt
  have hres := move_selection_stop t dy fuel _ hg (hall _ hlt)
  rw [hres, hstep]

/-- Three-line tree of `File` lines, for the C3 parts. -/
def ex3 : Tree :=
  { lines := [exLine "a" (LineType.File "a"), exLine "b" (LineType.File "b"),
              exLine "c" (LineType.File "c")],
    selection := 0 }

/-- Counterexample for C3: on three non-`Pruning` lines with selection 0,
`move_selection(-5)` sets the selection to 2 (the negative intermediate
`l as i32 + dy` is sign-extended by the `as usize` cast, adding
`2 ^ 64 - 2`), while the claimed formula `(0 + 3 + (-5)) mod 3` gives 1. -/
theorem move_selection_formula_cex :
    (ex3.move_selection (-5) 1).map Tree.selection = some 2 ∧
    ((0 : Int) + 3 + (-5)) % 3 = 1 ∧ (2 : Nat) ≠ 1 := by
  refine ⟨by decide, by decide, by decide⟩

/-- C3(amended): on a tree of `n` non-`Pruning` lines (`n < 2^31 - 1`),
for a delta with `-n ≤ delta` and `n + delta < 2^31`, one call of
`move_selection(delta)` sets the selection to `(selection + n + delta) mod n`
in one iteration; and `k` successive calls of `move_selection(+1)` from
selection `s` yield `(s + k) mod n`. (For `delta < -n` the claimed formula
fails because the `as usize` sign extension adds a value congruent to
`2^64 + n + delta`, not `n + delta`, modulo `n`.) -/
theorem move_selection_formula (t : Tree) (dy : Int) (k fuel : Nat)
    (hall : ∀ j (h : j < t.lines.length), t.lines[j].content.selectable = true)
    (hsel : t.selection < t.lines.length)
    (hn31 : (t.lines.length : Int) + 1 < 2 ^ 31)
    (hd0 : 0 ≤ (t.lines.length : Int) + dy)
    (hd1 : (t.lines.length : Int) + dy < 2 ^ 31) :
    t.move_selection dy (fuel + 1)
      = some { t with selection :=
          (t.selection + ((t.lines.length : Int) + dy).toNat) % t.lines.length } ∧
    t.moveIter 1 1 k
      = some { t with selection := (t.selection + k) % t.lines.length } := by
  constructor
  · exact move_selection_one t dy fuel hall hsel (by omega) hd0 hd1
  · induction k with
    | zero =>
      show some t = some { t with selection := (t.selection + 0) % t.lines.length }
      rw [Nat.add_zero, Nat.mod_eq_of_lt hsel]
    | succ k ihk =>
      show (t.moveIter 1 1 k).bind (fun t' => t'.move_selection 1 1) = _
      rw [ihk]
      show Tree.move_selection
          { t with selection := (t.selection + k) % t.lines.length } 1 1 = _
      have h1 := move_selection_one
        { t with selection := (t.selection + k) % t.lines.length } 1 0
        hall (Nat.mod_lt _ (by show 0 < t.lines.length; omega))
        (by show (t.lines.length : Int) < 2 ^ 31; omega)
        (by show (0 : Int) ≤ (t.lines.length : Int) + 1; omega)
        (by show (t.lines.length : Int) + 1 < 2 ^ 31; omega)
      rw [h1]
      have ht : ((t.lines.length : Int) + 1).toNat = t.lines.length + 1 := by omega
      rw [ht]
      have harith : ((t.selection + k) % t.lines.length + (t.lines.length + 1))
          % t.lines.length = (t.selection + (k + 1)) % t.lines.length := by
        rw [show (t.selection + k) % t.lines.length + (t.lines.length + 1)
            = (t.selection + k) % t.lines.length + 1 + t.lines.length by omega]
        rw [Nat.add_mod_right, Nat.mod_add_mod]
        rw [show t.selection + k + 1 = t.selection + (k + 1) by omega]
      rw [harith]

/-- Witness for C3(amended): on `ex3` (three `File` lines, selection 0),
`move_selection(-1)` lands on index 2 and two `move_selection(+1)` calls
land on index 2. -/
theorem move_selection_formula_witness :
    ex3.move_selection (-1) 1 = some { ex3 with selection := 2 } ∧
    ex3.moveIter 1 1 2 = some { ex3 with selection := 2 } := by
  have h := move_selection_formula ex3 (-1) 2 0 (by decide) (by decide)
    (by decide) (by decide) (by decide)
  exact ⟨h.1.trans (by decide), h.2.trans (by decide)⟩

/-- The line at `idx` exists and is selectable (`File` or `Dir`). -/
def selectableAt (lines : List TreeLine) (idx : Nat) : Prop :=
  ∃ l, lines[idx]? = some l ∧ l.content.selectable = true

lemma move_selection_term_aux (dy : Int) :
    ∀ (fuel : Nat) (t : Tree),
      (t.lines.length : Int) < 2 ^ 31 →
      t.selection < t.lines.length →
      0 ≤ (t.lines.length : Int) + dy →
      (t.lines.length : Int) + dy < 2 ^ 31 →
      (∃ k, 1 ≤ k ∧ k ≤ fuel ∧
        selectableAt t.lines
          ((t.selection + k * ((t.lines.length : Int) + dy).toNat) % t.lines.length)) →
      ∃ t', t.move_selection dy fuel = some t' := by
  intro fuel
  induction fuel with
  | zero =>
    rintro t _ _ _ _ ⟨k, hk1, hk2, _⟩
    omega
  | succ fuel ih =>
    rintro t hn31 hsel hd0 hd1 ⟨k, hk1, hkf, hksel⟩
    have hpos : 0 < t.lines.length := by omega
    have hstep := moveStep_eq t.lines.length t.selection dy hn31 (by omega) hd0 hd1
    have hs1lt : (t.selection + ((t.lines.length : Int) + dy).toNat) % t.lines.length
        < t.lines.length := Nat.mod_lt _ hpos
    by_cases hsel1 : selectableAt t.lines
        ((t.selection + ((t.lines.length : Int) + dy).toNat) % t.lines.length)
    · obtain ⟨l1, hl1, hl1s⟩ := hsel1
      exact ⟨_, move_selection_stop t dy fuel l1 (by rw [hstep]; exact hl1) hl1s⟩
    · have hgnone : ∀ l, t.lines[moveStep t.lines.length t.selection dy]? = some l →
          l.content.selectable = false := by
        intro l hl
        rw [hstep] at hl
        by_cases hb : l.content.selectable = true
        · exact absurd ⟨l, hl, hb⟩ hsel1
        · simp only [Bool.not_eq_true] at hb
          exact hb
      rw [move_selection_go t dy fuel hgnone]
      have hk2 : 2 ≤ k := by
        by_contra hc
        have hk1' : k = 1 := by omega
        rw [hk1', Nat.one_mul] at hksel
        exact hsel1 hksel
      apply ih { t with selection := moveStep t.lines.length t.selection dy }
      · show (t.lines.length : Int) < 2 ^ 31
        exact hn31
      · show moveStep t.lines.length t.selection dy < t.lines.length
        rw [hstep]
        exact hs1lt
      · exact hd0
      · exact hd1
      · refine ⟨k - 1, by omega, by omega, ?_⟩
        show selectableAt t.lines
          ((moveStep t.lines.length t.selection dy
            + (k - 1) * ((t.lines.length : Int) + dy).toNat) % t.lines.length)
        rw [hstep]
        have hmul : ((t.lines.length : Int) + dy).toNat
            + (k - 1) * ((t.lines.length : Int) + dy).toNat
            = k * ((t.lines.length : Int) + dy).toNat := by
          calc ((t.lines.length : Int) + dy).toNat
                + (k - 1) * ((t.lines.length : Int) + dy).toNat
              = (k - 1 + 1) * ((t.lines.length : Int) + dy).toNat := by
                rw [Nat.succ_mul, Nat.add_comm]
            _ = k * ((t.lines.length : Int) + dy).toNat := by
                rw [show k - 1 + 1 = k by omega]
        rw [Nat.mod_add_mod]
        rw [show t.selection + ((t.lines.length : Int) + dy).toNat
            + (k - 1) * ((t.lines.length : Int) + dy).toNat
            = t.selection + (((t.lines.length : Int) + dy).toNat
              + (k - 1) * ((t.lines.length : Int) + dy).toNat) by omega]
        rw [hmul]
        exact hksel

/-! Discrete arithmetic in `ZMod n` for the cyclic-hit argument. -/

lemma natmod_eq_of_cast_eq (n a b : Nat) [NeZero n] (hb : b < n)
    (h : (a : ZMod n) = (b : ZMod n)) : a % n = b := by
  have hv := congrArg ZMod.val h
  rwa [ZMod.val_natCast, ZMod.val_natCast, Nat.mod_eq_of_lt hb] at hv

lemma natCast_discrete (n a b : Nat) [NeZero n] (hb : b < n) :
    ((((n + a - b - 1) % n) + 1 : Nat) : ZMod n) = (a : ZMod n) - (b : ZMod n) := by
  have h1 : n + a - b - 1 = n + a - (b + 1) := by omega
  have h2 : b + 1 ≤ n + a := by omega
  rw [h1]
  push_cast [ZMod.natCast_mod, Nat.cast_sub h2]
  rw [ZMod.natCast_self]
  ring

lemma exists_hit (n sel j C : Nat) (hn : 0 < n) (hsel : sel < n) (hj : j < n)
    (hC : (C : ZMod n) = 1 ∨ (C : ZMod n) = -1) :
    ∃ k, 1 ≤ k ∧ k ≤ n ∧ (sel + k * C) % n = j := by
  haveI : NeZero n := ⟨by omega⟩
  rcases hC with hC | hC
  · refine ⟨(n + j - sel - 1) % n + 1, by omega, ?_, ?_⟩
    · have hm := Nat.mod_lt (n + j - sel - 1) hn
      omega
    · apply natmod_eq_of_cast_eq n _ j hj
      have hk := natCast_discrete n j sel hsel
      have hcast : ((sel + ((n + j - sel - 1) % n + 1) * C : Nat) : ZMod n)
          = (sel : ZMod n) + (((n + j - sel - 1) % n + 1 : Nat) : ZMod n) * (C : ZMod n) := by
        push_cast
        ring
      rw [hcast, hk, hC]
      ring
  · refine ⟨(n + sel - j - 1) % n + 1, by omega, ?_, ?_⟩
    · have hm := Nat.mod_lt (n + sel - j - 1) hn
      omega
    · apply natmod_eq_of_cast_eq n _ j hj
      have hk := natCast_discrete n sel j hj
      have hcast : ((sel + ((n + sel - j - 1) % n + 1) * C : Nat) : ZMod n)
          = (sel : ZMod n) + (((n + sel - j - 1) % n + 1 : Nat) : ZMod n) * (C : ZMod n) := by
        push_cast
        ring
      rw [hcast, hk, hC]
      ring

/-- C2(amended): on a tree holding at least one `File`/`Dir` line, with the
selection in bounds and `n + 1 < 2^31`, `move_selection(delta)` for
`delta = +1` or `delta = -1` terminates within `n` iterations, and the
resulting selection is in bounds on a line that is not `Pruning`. (The
original claim quantified over every delta; it fails, e.g. for
`delta = 0`, see the counterexample.) -/
theorem move_selection_pm_one (t : Tree) (dy : Int) (hdy : dy = 1 ∨ dy = -1)
    (hn31 : (t.lines.length : Int) + 1 < 2 ^ 31)
    (hsel : t.selection < t.lines.length)
    (j : Nat) (hj : j < t.lines.length) (lj : TreeLine)
    (hjl : t.lines[j]? = some lj) (hjs : lj.content.selectable = true) :
    ∃ t', t.move_selection dy t.lines.length = some t' ∧
      t'.lines = t.lines ∧ t'.selection < t.lines.length ∧
      ∃ l, t.lines[t'.selection]? = some l ∧ l.content.selectable = true := by
  have hpos : 0 < t.lines.length := by omega
  have hd0 : 0 ≤ (t.lines.length : Int) + dy := by rcases hdy with rfl | rfl <;> omega
  have hd1 : (t.lines.length : Int) + dy < 2 ^ 31 := by rcases hdy with rfl | rfl <;> omega
  haveI : NeZero t.lines.length := ⟨by omega⟩
  have hCcast : ((((t.lines.length : Int) + dy).toNat : ZMod t.lines.length) = 1)
      ∨ ((((t.lines.length : Int) + dy).toNat : ZMod t.lines.length) = -1) := by
    rcases hdy with rfl | rfl
    · left
      rw [show ((t.lines.length : Int) + 1).toNat = t.lines.length + 1 by omega]
      push_cast
      rw [ZMod.natCast_self]
      ring
    · right
      rw [show ((t.lines.length : Int) + (-1)).toNat = t.lines.length - 1 by omega]
      push_cast [Nat.cast_sub (show 1 ≤ t.lines.length by omega)]
      rw [ZMod.natCast_self]
      ring
  obtain ⟨k, hk1, hkn, hkhit⟩ := exists_hit t.lines.length t.selection j
    (((t.lines.length : Int) + dy).toNat) hpos hsel hj hCcast
  obtain ⟨t', ht'⟩ := move_selection_term_aux dy t.lines.length t (by omega) hsel hd0 hd1
    ⟨k, hk1, hkn, by rw [hkhit]; exact ⟨lj, hjl, hjs⟩⟩
  obtain ⟨hlines, hslt, hselat⟩ := move_selection_some dy t.lines.length t t' ht'
  exact ⟨t', ht', hlines, hslt, hselat⟩

/-- Two-line tree whose `Pruning` line is initially selected; its other
line is a `File`. -/
def exPT : Tree :=
  { lines := [exLine "p" (LineType.Pruning 0), exLine "" (LineType.File "f")],
    selection := 0 }

/-- Counterexample for C2: `exPT` contains a `File` line, yet
`move_selection(0)` never terminates: the step `(0 + 2) % 2` re-selects
the `Pruning` line at index 0 forever, for any amount of fuel. -/
theorem move_selection_zero_cex : ¬ exPT.moveTerminates 0 := by
  have key : ∀ fuel, exPT.move_selection 0 fuel = none := by
    intro fuel
    induction fuel with
    | zero => rfl
    | succ fuel ih =>
      have hstep : exPT.move_selection 0 (fuel + 1) = exPT.move_selection 0 fuel := rfl
      exact hstep.trans ih
  rintro ⟨fuel, t', h⟩
  rw [key fuel] at h
  exact absurd h (by simp)

/-- Witness for C2(amended): starting on `exPT`'s `Pruning` line,
`move_selection(+1)` terminates on the `File` line. -/
theorem move_selection_pm_one_witness :
    ∃ t', exPT.move_selection 1 exPT.lines.length = some t' ∧
      t'.lines = exPT.lines ∧ t'.selection < exPT.lines.length ∧
      ∃ l, exPT.lines[t'.selection]? = some l ∧ l.content.selectable = true :=
  move_selection_pm_one exPT 1 (Or.inl rfl) (by decide) (by decide) 1 (by decide)
    (exLine "" (LineType.File "f")) (by decide) (by decide)

/-! Helper lemmas relating names, scores and selectability. -/

lemma selectable_of_name_some (l : TreeLine) (nm : String) (h : l.name = some nm) :
    l.content.selectable = true := by
  unfold TreeLine.name at h
  cases hc : l.content with
  | File name => rfl
  | Dir name unlisted => rfl
  | Pruning unlisted =>
    rw [hc] at h
    exact absurd h (by simp)

lemma selectable_of_lineScore (pat : Pattern) (l : TreeLine) (s : Int)
    (h : lineScore pat l = some s) : l.content.selectable = true := by
  simp only [lineScore] at h
  cases hn : l.name with
  | none =>
    rw [hn] at h
    exact absurd h (by simp)
  | some nm => exact selectable_of_name_some l nm hn

/-- C1(amended): starting from a tree whose selection is in bounds on a
non-`Pruning` line, every selection mutator keeps
`0 <= selection < lines.len()`; `move_selection`, `try_select_best_match`
and `try_select_next_match` additionally keep the selected line
non-`Pruning`. (`try_select` does not enforce the non-`Pruning` part: it
selects any line whose key matches, including a `Pruning` line — see the
counterexample.) -/
theorem selection_invariant (t : Tree) (key : String) (pat : Pattern) (dy : Int) (fuel : Nat)
    (hsel : t.selection < t.lines.length)
    (hps : selectableAt t.lines t.selection) :
    ((t.try_select key).2.selection < t.lines.length) ∧
    (∀ t', t.move_selection dy fuel = some t' →
      t'.selection < t'.lines.length ∧ selectableAt t'.lines t'.selection) ∧
    ((t.try_select_best_match pat).2.selection < t.lines.length ∧
      selectableAt t.lines (t.try_select_best_match pat).2.selection) ∧
    ((t.try_select_next_match pat).2.selection < t.lines.length ∧
      selectableAt t.lines (t.try_select_next_match pat).2.selection) := by
  refine ⟨?_, ?_, ?_, ?_⟩
  · unfold Tree.try_select
    cases h : trySelectAux key t.lines 0 with
    | none => exact hsel
    | some i =>
      have hlt := trySelectAux_lt key t.lines 0 i h
      show i < t.lines.length
      omega
  · intro t' h
    obtain ⟨hlines, hlt, l, hg, hs⟩ := move_selection_some dy fuel t t' h
    refine ⟨by rw [hlines]; exact hlt, ?_⟩
    rw [hlines]
    exact ⟨l, hg, hs⟩
  · obtain ⟨h1, h2, h3⟩ := bestMatchAux_spec pat t.lines 0 0 t.selection
    have hsnd : (t.try_select_best_match pat).2
        = { t with selection := (bestMatchAux pat t.lines 0 0 t.selection).2 } := rfl
    rcases h3 with ⟨_, e2⟩ | ⟨_, j, hjlt, hidx, hscj, _⟩
    · rw [hsnd, e2]
      exact ⟨hsel, hps⟩
    · rw [hsnd, hidx, Nat.zero_add]
      refine ⟨hjlt, t.lines[j], List.getElem?_eq_getElem hjlt, ?_⟩
      exact selectable_of_lineScore pat t.lines[j] _ hscj
  · unfold Tree.try_select_next_match
    cases h : nextMatchAux pat t.lines t.selection 0 t.lines.length with
    | none => exact ⟨hsel, hps⟩
    | some idx =>
      have hm := nextMatchAux_matched pat t.lines t.selection t.lines.length 0 idx h
      cases hg : t.lines[idx]? with
      | none =>
        simp only [matchAt, hg] at hm
        exact absurd hm (by simp)
      | some l =>
        cases hn : l.name with
        | none =>
          simp only [matchAt, hg, hn] at hm
          exact absurd hm (by simp)
        | some nm =>
          have hidx : idx < t.lines.length := by
            by_contra hc
            rw [List.getElem?_eq_none (by omega)] at hg
            exact absurd hg (by simp)
          exact ⟨hidx, l, hg, selectable_of_name_some l nm hn⟩

/-- Tree whose `Pruning` line carries the key `"p"`, with the invariant
initially satisfied (selection 0 is a `File` line). -/
def exC1 : Tree :=
  { lines := [exLine "" (LineType.File "a"), exLine "p" (LineType.Pruning 0)],
    selection := 0 }

/-- Counterexample for C1: on `exC1`, `try_select "p"` succeeds and moves
the selection onto the `Pruning` line, so `try_select` does not enforce
the "selected line is never `Pruning`" part of the invariant. -/
theorem try_select_selects_pruning_cex :
    (exC1.try_select "p").1 = true ∧
    ((exC1.try_select "p").2.lines[(exC1.try_select "p").2.selection]?).map
      TreeLine.content = some (LineType.Pruning 0) := by
  exact ⟨by decide, by decide⟩

/-- Witness for C1(amended): all four mutators applied on a concrete tree
with the invariant initially satisfied. -/
theorem selection_invariant_witness :
    ((exNM.try_select "b").2.selection < exNM.lines.length) ∧
    (∀ t', exNM.move_selection 1 2 = some t' →
      t'.selection < t'.lines.length ∧ selectableAt t'.lines t'.selection) ∧
    ((exNM.try_select_best_match exFo).2.selection < exNM.lines.length ∧
      selectableAt exNM.lines (exNM.try_select_best_match exFo).2.selection) ∧
    ((exNM.try_select_next_match exFo).2.selection < exNM.lines.length ∧
      selectableAt exNM.lines (exNM.try_select_next_match exFo).2.selection) :=
  selection_invariant exNM "b" exFo 1 2 (by decide)
    ⟨exLine "" (LineType.File "root"), by decide, by decide⟩

end FlatTree
